import Mathlib

/-!
Verification of the regular-expression engine (parser, Thompson-style
compiler, NFA graph operations and multi-state simulator) of the
Data_Structures repository, against its natural-language specification.

The C++ sources are shallowly embedded:
* node objects on the heap become entries of an explicit heap
  (`regex.Heap`, an association list from node ids to `regex.NodeData`);
* `Node*` pointers become `regex.NodeRef := Option Nat` (`none` = `nullptr`);
* each `NFA` object is an id into a registry carried by `regex.World`
  (its `nodes_` set, `input_` and `output_` pointers);
* `std::function<bool(char)>` transition conditions become `Char → Bool`;
* while-loops are written as fuel-indexed recursions whose fuel budget is
  provably sufficient (see `regex.expand_empty` and the parser), so that
  every definition stays executable and kernel-reducible.
-/

namespace regex

/-- A `Node*` value: `none` models `nullptr`. -/
abbrev NodeRef : Type := Option Nat

/-- `typedef std::unordered_set<Node*> NodeList` (re_nfa.hpp line 41). -/
abbrev NodeList : Type := Finset NodeRef

/-- `class Transition` (re_nfa.hpp lines 135-144): a target node plus a
predicate over one input character.  `Node::add_transition(const Transition&)`
only stores transitions with a non-null target, so the stored target is a
plain id. -/
structure Transition where
  target : Nat
  condition : Char → Bool

/-- The data of one `Node` (re_nfa.hpp lines 149-208): the conditioned
transition list `transitions_`, the epsilon-transition set
`empty_transitions_` (never contains null: `add_transition(Node*)` checks
its argument), and the back-reference `graph_` to the owning `NFA`. -/
structure NodeData where
  transitions : List Transition
  empty_transitions : Finset Nat
  graph : Option Nat

/-- The state of a node that was never written: a default-constructed
`Node` with no transitions and no owning graph. -/
def emptyNodeData : NodeData := ⟨[], ∅, none⟩

/-- The heap of node objects: an association list from node id to data,
newest binding first. -/
abbrev Heap : Type := List (Nat × NodeData)

/-- Read a node from the heap (dereference a `Node*`). -/
def lookupNode : Heap → Nat → NodeData
  | [], _ => emptyNodeData
  | (m, d) :: t, n => if m = n then d else lookupNode t n

/-- Overwrite a node on the heap. -/
def setNode (h : Heap) (n : Nat) (d : NodeData) : Heap := (n, d) :: h

/-- The union of every `empty_transitions_` set recorded anywhere on the
heap; a finite superset of every epsilon target, used to budget the
worklist loop of `expand_empty`. -/
def allEps : Heap → Finset Nat
  | [] => ∅
  | (_, d) :: t => d.empty_transitions ∪ allEps t

/-- The set of references produced by `current_node->empty_transitions()`
for a reference `current_node`: the node's epsilon targets, as
references.  (For `none` this is vacuous: the C++ never dereferences a
null current node, line 240-241.) -/
def epsRefs (heap : Heap) : NodeRef → NodeList
  | none => ∅
  | some n => (lookupNode heap n).empty_transitions.image (some ·)

/-- Every epsilon target recorded on the heap, as a reference set. -/
def allRefs (heap : Heap) : NodeList := (allEps heap).image (some ·)

/-- Encoding of node references as naturals, used to make the choice of
`*source.begin()` (an unspecified `unordered_set` iteration order in the
C++) deterministic: we always pop the reference with the least key. -/
def refKey : NodeRef → Nat
  | none => 0
  | some n => n + 1

/-- Inverse of `refKey`. -/
def refOfKey (k : Nat) : NodeRef := if k = 0 then none else some (k - 1)

/-- Pop candidate of a non-empty worklist: the element with least
`refKey`.  Models `*source.begin()` in `NfaRunner::expand_empty`
(re_nfa.cpp line 238); the C++ iteration order is unspecified and the
closure computed by the loop does not depend on it. -/
def pickRef (s : NodeList) (h : s.Nonempty) : NodeRef :=
  refOfKey ((s.image refKey).min' (h.image refKey))

/-- One iteration of the worklist loop of `NfaRunner::expand_empty`
(re_nfa.cpp lines 237-247) on the pair (source, output):
pop a node, skip it if null, otherwise add it to the output and queue
every epsilon-adjacent node that is neither queued nor already output. -/
def expand_empty_step (heap : Heap) (p : NodeList × NodeList) : NodeList × NodeList :=
  if h : p.1.Nonempty then
    let current := pickRef p.1 h
    let source := p.1.erase current
    match current with
    | none => (source, p.2)
    | some n =>
      let output := insert (some n) p.2
      let fresh := (epsRefs heap (some n)).filter
        (fun adjacent => adjacent ∉ source ∧ adjacent ∉ output)
      (source ∪ fresh, output)
  else p

/-- The worklist loop of `NfaRunner::expand_empty`, indexed by fuel.
The loop runs while `source` is non-empty; `expand_empty` below supplies
a fuel budget that provably dominates the number of iterations, so the
fuel-exhaustion branch is never taken at that budget. -/
def expand_empty_fuel (heap : Heap) : Nat → NodeList → NodeList → NodeList
  | 0, _, output => output
  | fuel + 1, source, output =>
    if source.Nonempty then
      let p := expand_empty_step heap (source, output)
      expand_empty_fuel heap fuel p.1 p.2
    else output

/-- `NfaRunner::expand_empty` (re_nfa.cpp lines 235-249): epsilon-closure
of a set of node references by worklist expansion.  The budget
`2 * |source ∪ allEps| + 1` bounds the iteration count (each iteration
either moves a reference into the output for good or discards a null). -/
def expand_empty (heap : Heap) (source : NodeList) : NodeList :=
  expand_empty_fuel heap (2 * (source ∪ allRefs heap).card + 1) source ∅

/-- `Node::next_nodes(char c)` (re_nfa.cpp lines 198-204): the targets of
every conditioned transition whose predicate accepts `c` (epsilon edges
are not expanded). -/
def next_nodes (d : NodeData) (c : Char) : NodeList :=
  d.transitions.foldr
    (fun t nodes => if t.condition c then insert (some t.target) nodes else nodes) ∅

/-- `NfaRunner::expand` (re_nfa.cpp lines 251-258): union the
`next_nodes` of every node of the source set, then epsilon-close.
A null reference in the source would be dereferenced by the C++ (undefined
behaviour); it is modelled as contributing nothing and never occurs in the
runner, whose states are closure outputs. -/
def expand (heap : Heap) (source : NodeList) (c : Char) : NodeList :=
  expand_empty heap
    (source.biUnion (fun r => match r with
      | some n => next_nodes (lookupNode heap n) c
      | none => ∅))

/-- The elements of a finite set of node ids in ascending order, used to
iterate deterministically where the C++ iterates an `unordered_set` in
unspecified order (the results do not depend on the order).  Written
with `List.range` so that it evaluates inside the kernel. -/
def ascNodes (s : Finset Nat) : List Nat :=
  (List.range (s.sup id + 1)).filter (fun n => n ∈ s)

/-- The loop measure: twice the references that still have to enter the
output, plus the queued references that are already output (each
iteration strictly decreases it). -/
def nodeMu (heap : Heap) (s o : NodeList) : Nat :=
  2 * ((s ∪ allRefs heap) \ o).card + (s ∩ o).card

/-- The global state of the embedding: the node heap with its allocation
counter, and the registry of live `NFA` objects (their `nodes_` set and
`input_`/`output_` pointers, re_nfa.hpp lines 125-128), keyed by an NFA
id with its own allocation counter. -/
structure World where
  nodeCtr : Nat
  heap : Heap
  nfaCtr : Nat
  nfaNodes : Nat → Finset Nat
  nfaInput : Nat → NodeRef
  nfaOutput : Nat → NodeRef

/-- The initial state: nothing allocated. -/
def World.empty : World :=
  ⟨0, [], 0, fun _ => ∅, fun _ => none, fun _ => none⟩

/-- `new Node` (`Node::Node(NFA* graph = nullptr)`, re_nfa.cpp line 151):
allocate a fresh node with no transitions and a null back-reference. -/
def World.new_node (w : World) : World × Nat :=
  ({ w with nodeCtr := w.nodeCtr + 1,
            heap := setNode w.heap w.nodeCtr emptyNodeData },
   w.nodeCtr)

/-- `NFA::remove_node` (re_nfa.cpp lines 82-91): if the node is owned by
this graph, null its back-reference, null `input_`/`output_` if the node
was designated, and erase it from `nodes_`. -/
def World.remove_node (w : World) (g n : Nat) : World :=
  if (lookupNode w.heap n).graph = some g then
    let w := { w with heap := setNode w.heap n { lookupNode w.heap n with graph := none } }
    let w := if w.nfaInput g = some n then
        { w with nfaInput := Function.update w.nfaInput g none } else w
    let w := if w.nfaOutput g = some n then
        { w with nfaOutput := Function.update w.nfaOutput g none } else w
    { w with nfaNodes := Function.update w.nfaNodes g ((w.nfaNodes g).erase n) }
  else w

/-- `NFA::insert_node` (re_nfa.cpp lines 73-80): if the node is not
already owned by this graph, remove it from its previous owner (if any),
point its back-reference here and add it to `nodes_`. -/
def World.insert_node (w : World) (g n : Nat) : World :=
  if (lookupNode w.heap n).graph = some g then w
  else
    let w := match (lookupNode w.heap n).graph with
      | some g2 => w.remove_node g2 n
      | none => w
    let w := { w with heap := setNode w.heap n { lookupNode w.heap n with graph := some g } }
    { w with nfaNodes := Function.update w.nfaNodes g (insert n (w.nfaNodes g)) }

/-- `NFA::set_input` (re_nfa.cpp lines 136-139): insert the node, then
designate it as input.  A null argument would be dereferenced by
`insert_node` (undefined behaviour, never reached in the verified paths);
it is modelled as a no-op. -/
def World.set_input (w : World) (g : Nat) (n : NodeRef) : World :=
  match n with
  | some m =>
    let w := w.insert_node g m
    { w with nfaInput := Function.update w.nfaInput g (some m) }
  | none => w

/-- `NFA::set_output` (re_nfa.cpp lines 145-148), as `set_input`. -/
def World.set_output (w : World) (g : Nat) (n : NodeRef) : World :=
  match n with
  | some m =>
    let w := w.insert_node g m
    { w with nfaOutput := Function.update w.nfaOutput g (some m) }
  | none => w

/-- `NFA::NFA()` (re_nfa.cpp lines 30-33): a fresh automaton whose
members start empty/null, with a new input node and a new output node. -/
def World.new_nfa (w : World) : World × Nat :=
  let g := w.nfaCtr
  let w := { w with nfaCtr := g + 1,
                    nfaNodes := Function.update w.nfaNodes g ∅,
                    nfaInput := Function.update w.nfaInput g none,
                    nfaOutput := Function.update w.nfaOutput g none }
  let p := w.new_node
  let w := p.1.set_input g (some p.2)
  let q := w.new_node
  let w := q.1.set_output g (some q.2)
  (w, g)

/-- `Node::merge` (re_nfa.cpp lines 210-213): append the other node's
conditioned transitions and union in its epsilon transitions. -/
def World.node_merge (w : World) (dst src : Nat) : World :=
  let dd := lookupNode w.heap dst
  let sd := lookupNode w.heap src
  { w with heap := (setNode w.heap dst
      { dd with transitions := dd.transitions ++ sd.transitions,
                empty_transitions := dd.empty_transitions ∪ sd.empty_transitions }) }

/-- `delete node` (`Node::~Node`, re_nfa.cpp lines 153-156): a node that
still has an owner removes itself from that owner.  Deallocation itself
has no observable effect in the model. -/
def World.delete_node (w : World) (n : Nat) : World :=
  match (lookupNode w.heap n).graph with
  | some g => w.remove_node g n
  | none => w

/-- `NFA::acquire_nodes` (re_nfa.cpp lines 122-130): null the other
automaton's input/output, repoint every one of its nodes here, adopt them
all, and clear the other's node set.  The per-node loop runs over the
sorted id list (the C++ `unordered_set` order is unspecified and the
result does not depend on it). -/
def World.acquire_nodes (w : World) (g other : Nat) : World :=
  let w := { w with nfaInput := Function.update w.nfaInput other none,
                    nfaOutput := Function.update w.nfaOutput other none }
  let otherNodes : Finset Nat := w.nfaNodes other
  let w := { w with heap := ((ascNodes otherNodes).foldl
      (fun h n => setNode h n { lookupNode h n with graph := some g }) w.heap) }
  let merged := Function.update w.nfaNodes g ((w.nfaNodes g) ∪ otherNodes)
  { w with nfaNodes := Function.update merged other ∅ }

/-- `NFA::merge` (re_nfa.cpp lines 110-120).  Fails (no-op, `false`) when
the argument is this same automaton, this automaton lacks an output, or
the other lacks an input or an output — note the C++ guard never checks
`input_` of `this`.  Otherwise: fuse `this->output_` with
`other->input_`, delete the latter, take over the other's output, adopt
its remaining nodes, and report success. -/
def World.merge (w : World) (g other : Nat) : World × Bool :=
  if g = other ∨ w.nfaOutput g = none ∨
      w.nfaInput other = none ∨ w.nfaOutput other = none then
    (w, false)
  else
    let w1 := match w.nfaOutput g, w.nfaInput other with
      | some dst, some src => w.node_merge dst src
      | _, _ => w
    let w2 := match w1.nfaInput other with
      | some src => w1.delete_node src
      | none => w1
    let w3 := w2.set_output g (w2.nfaOutput other)
    (w3.acquire_nodes g other, true)

/-- `Node::translate` (re_nfa.cpp lines 162-178): rewrite the node's
epsilon and conditioned transitions through the old→new map, dropping
targets that the map does not know. -/
def World.translate_node (w : World) (n : Nat) (map : List (Nat × Nat)) : World :=
  let d := lookupNode w.heap n
  let newEmpty :=
    ((ascNodes d.empty_transitions).filterMap (fun t => map.lookup t)).toFinset
  let newTrans := d.transitions.filterMap (fun t =>
    match map.lookup t.target with
    | some nt => some { t with target := nt }
    | none => none)
  { w with heap := setNode w.heap n { d with transitions := newTrans,
                                             empty_transitions := newEmpty } }

/-- `NFA::duplicate` (re_nfa.cpp lines 51-67): build a fresh automaton,
clone every node of the source into it while recording the old→new
translation, then rewrite every edge of the result through the map.
`Node::clone` (line 158-160) is the copy constructor: it copies the
transition data and the `graph_` back-reference verbatim; the subsequent
`insert_node` repoints the clone at the result.  Note the C++ never
redirects the result's `input_`/`output_`, which stay the two fresh
nodes made by the `NFA()` constructor. -/
def World.duplicate (w : World) (src : Nat) : World × Nat :=
  let p := w.new_nfa
  let res := p.2
  let start : World × List (Nat × Nat) := (p.1, [])
  let q := (ascNodes (w.nfaNodes src)).foldl
    (fun (acc : World × List (Nat × Nat)) n =>
      let w := acc.1
      let r := w.new_node
      let w := { r.1 with heap := setNode r.1.heap r.2 (lookupNode w.heap n) }
      let w := w.insert_node res r.2
      (w, acc.2 ++ [(n, r.2)]))
    start
  let w := (ascNodes (q.1.nfaNodes res)).foldl
    (fun w n => World.translate_node w n q.2) q.1
  (w, res)

/-- `NfaRunner::acceptable` (re_nfa.cpp lines 227-229): the automaton's
output is non-null and a member of the current state set. -/
def acceptable (w : World) (g : Nat) (state : NodeList) : Bool :=
  match w.nfaOutput g with
  | none => false
  | some o => decide (some o ∈ state)

/-- A complete simulator run (`NfaRunner`, re_nfa.cpp lines 215-233):
start from the epsilon closure of `{nfa.input()}` (the constructor's
`set_state`), `step` once per input character, then ask `acceptable`. -/
def run_nfa (w : World) (g : Nat) (text : List Char) : Bool :=
  acceptable w g (text.foldl (fun state c => expand w.heap state c)
    (expand_empty w.heap {w.nfaInput g}))

/-! ### AST (re_ast.hpp / the `build` implementations)

The C++ AST is a class hierarchy handled through nullable owning
pointers; the `null` constructor models a null `ast::Node*` (every
`build` implementation checks its children for null before using them).
`SingleCharacter` is kept as its own constructor: in the C++ it is a
`Leaf` whose predicate is the closure `[c](char d){return c == d;}`. -/
inductive Ast where
  | null
  | choice (l r : Ast)
  | concat (l r : Ast)
  | kleeneStar (c : Ast)
  | kleenePlus (c : Ast)
  | optional (c : Ast)
  | subexpression (c : Ast)
  | leaf (condition : Char → Bool)
  | singleCharacter (c : Char)

/-- `left_graph.output()->add_transition(graph.output())` and friends:
`Node::add_transition(Node* target)` (re_nfa.cpp lines 180-183) inserts
an epsilon edge, ignoring a null target.  A null source would be a null
dereference at the call site (never reached: fragment inputs/outputs are
non-null); modelled as a no-op. -/
def World.add_empty_transition (w : World) (src tgt : NodeRef) : World :=
  match src, tgt with
  | some s, some t =>
    let d := lookupNode w.heap s
    { w with heap := (setNode w.heap s
        { d with empty_transitions := insert t d.empty_transitions }) }
  | _, _ => w

/-- `Node::add_transition(Node* target, const Transition::Functor&)`
(re_nfa.cpp lines 185-192): append a conditioned transition; dropped if
the target is null (the functor is always non-empty in the model). -/
def World.add_transition (w : World) (src tgt : NodeRef) (condition : Char → Bool) :
    World :=
  match src, tgt with
  | some s, some t =>
    let d := lookupNode w.heap s
    { w with heap := (setNode w.heap s
        { d with transitions := d.transitions ++ [⟨t, condition⟩] }) }
  | _, _ => w

/-- `Leaf::build` (regex.hpp lines 188-192): a fresh two-node automaton
with one conditioned edge input→output. -/
def buildLeaf (w : World) (condition : Char → Bool) : World × Nat :=
  let p := w.new_nfa
  let g := p.2
  let w := p.1
  (w.add_transition (w.nfaInput g) (w.nfaOutput g) condition, g)

/-- The virtual `ast::Node::build` (regex.hpp lines 100-196), one case
per variant.  `Ast.null.build` doubles as the `return NFA()` that every
C++ `build` performs when a child pointer is null, and as
`Parser::compile`'s `if (!parsed) return nfa::NFA();`. -/
def Ast.build : Ast → World → World × Nat
  | .null, w => w.new_nfa
  | .choice l r, w =>
    -- Choice::build: fresh fragment; each non-null side is linked by
    -- epsilon edges new.input→side.input and side.output→new.output,
    -- then absorbed.
    let p := w.new_nfa
    let g := p.2
    let w := p.1
    let w := match l with
      | .null => w
      | _ =>
        let pl := l.build w
        let lg := pl.2
        let w := pl.1
        let w := w.add_empty_transition (w.nfaInput g) (w.nfaInput lg)
        let w := w.add_empty_transition (w.nfaOutput lg) (w.nfaOutput g)
        w.acquire_nodes g lg
    let w := match r with
      | .null => w
      | _ =>
        let pr := r.build w
        let rg := pr.2
        let w := pr.1
        let w := w.add_empty_transition (w.nfaInput g) (w.nfaInput rg)
        let w := w.add_empty_transition (w.nfaOutput rg) (w.nfaOutput g)
        w.acquire_nodes g rg
    (w, g)
  | .concat l r, w =>
    -- Concat::build: if (left && right) { build both; left.merge(right);
    -- return left; } return NFA();
    match l, r with
    | .null, _ => w.new_nfa
    | _, .null => w.new_nfa
    | _, _ =>
      let pl := l.build w
      let pr := r.build pl.1
      let m := pr.1.merge pl.2 pr.2
      (m.1, pl.2)
  | .kleeneStar c, w =>
    match c with
    | .null => w.new_nfa
    | _ =>
      let p := w.new_nfa
      let g := p.2
      let pc := c.build p.1
      let cg := pc.2
      let w := pc.1
      let w := w.add_empty_transition (w.nfaInput g) (w.nfaOutput g)
      let w := w.add_empty_transition (w.nfaInput g) (w.nfaInput cg)
      let w := w.add_empty_transition (w.nfaOutput cg) (w.nfaInput cg)
      let w := w.add_empty_transition (w.nfaOutput cg) (w.nfaOutput g)
      (w.acquire_nodes g cg, g)
  | .kleenePlus c, w =>
    -- as kleeneStar, omitting the direct input→output epsilon
    match c with
    | .null => w.new_nfa
    | _ =>
      let p := w.new_nfa
      let g := p.2
      let pc := c.build p.1
      let cg := pc.2
      let w := pc.1
      let w := w.add_empty_transition (w.nfaInput g) (w.nfaInput cg)
      let w := w.add_empty_transition (w.nfaOutput cg) (w.nfaInput cg)
      let w := w.add_empty_transition (w.nfaOutput cg) (w.nfaOutput g)
      (w.acquire_nodes g cg, g)
  | .optional c, w =>
    -- Optional::build: reuse the child fragment, adding one epsilon
    -- child.input→child.output
    match c with
    | .null => w.new_nfa
    | _ =>
      let pc := c.build w
      let cg := pc.2
      let w := pc.1
      (w.add_empty_transition (w.nfaInput cg) (w.nfaOutput cg), cg)
  | .subexpression c, w =>
    -- Subexpression::build: pure passthrough ("it doesn't actually do
    -- anything")
    match c with
    | .null => w.new_nfa
    | _ => c.build w
  | .leaf condition, w => buildLeaf w condition
  | .singleCharacter ch, w => buildLeaf w (fun d => ch == d)

/-! ### Parser (re_parser.hpp / SimpleParser)

The `std::istream` is a `List Char`; `get` at end of stream yields the
`eof` sentinel, whose conversion to `char` is `(char)-1` = `'\xFF'`. -/

/-- `(char)std::char_traits<char>::eof()` on an 8-bit-`char` platform. -/
def eofChar : Char := Char.ofNat 255

/-- `SimpleParser::is_primary` (part_001 lines 151-153); `none` is
end-of-input. -/
def is_primary : Option Char → Bool
  | none => false
  | some c => c ≠ ')' && c ≠ '|'

/-- `SimpleParser::parse_quantifier` (part_001 lines 137-149): consume a
`?`/`*`/`+` and wrap the child; otherwise put the character back
(`unget`) and return the child unchanged. -/
def parse_quantifier (child : Ast) (l : List Char) : Ast × List Char :=
  match l with
  | '?' :: rest => (.optional child, rest)
  | '*' :: rest => (.kleeneStar child, rest)
  | '+' :: rest => (.kleenePlus child, rest)
  | _ => (child, l)

/-- The inclusive character range `a-b` accumulated by the loop
`for (; c <= d; c++) characters += c;` in `parse_bracket`.  (When the
C++ reads `d` past the end of input, `d` is `(char)-1`, which compares
negative, so nothing is accumulated — see the `[]` case of
`parse_bracket_loop`.) -/
def bracket_range (c d : Char) : List Char :=
  (List.range (d.toNat + 1 - c.toNat)).map (fun i => Char.ofNat (c.toNat + i))

/-- The accumulation loop of `SimpleParser::parse_bracket` (part_001
lines 118-131), fuel-indexed (each iteration consumes at least one
character, so `length + 1` fuel suffices).  Returns the accumulated
member list and the rest of the input. -/
def parse_bracket_loop : Nat → List Char → List Char → List Char × List Char
  | 0, characters, l => (characters, l)
  | _ + 1, characters, [] => (characters, [])
  | fuel + 1, characters, c :: rest =>
    if c = ']' then (characters, rest)
    else match c, rest with
      | '\\', d :: rest2 => parse_bracket_loop fuel (characters ++ [d]) rest2
      | _, '-' :: d :: rest3 =>
        parse_bracket_loop fuel (characters ++ bracket_range c d) rest3
      | _, '-' :: [] =>
        -- input.get() returns eof; d = (char)-1, the range loop adds nothing
        parse_bracket_loop fuel characters []
      | _, _ => parse_bracket_loop fuel (characters ++ [c]) rest

/-- `SimpleParser::parse_bracket` (part_001 lines 106-135): handle a
leading `^` (negate flag) or literal `-`, accumulate the member set,
and build the leaf predicate.  NOTE: in the source both polarity
branches (lines 132-134) return the same *not-member* predicate
`characters.find(c) == std::string::npos`; the negate flag has no
effect.  The translation preserves this: the two arms of the `if`
below are identical, as in the C++. -/
def parse_bracket (l : List Char) : Ast × List Char :=
  let negate := match l with
    | '^' :: _ => true
    | _ => false
  let start := match l with
    | '^' :: rest => ([], rest)
    | '-' :: rest => (['-'], rest)
    | _ => ([], l)
  let p := parse_bracket_loop (start.2.length + 1) start.1 start.2
  let characters := p.1
  if negate then (.leaf (fun c => !characters.contains c), p.2)
  else (.leaf (fun c => !characters.contains c), p.2)

mutual

/-- `SimpleParser::parse_choice` (part_001 lines 58-67), fuel-indexed.
Fuel only runs out below the budget used by `SimpleParser.parse`. -/
def parse_choiceF : Nat → List Char → Ast × List Char
  | 0, l => (.null, l)
  | fuel + 1, l =>
    let p := parse_concatF fuel l
    choice_loopF fuel p.1 p.2

/-- The `while (input.peek() == '|')` loop of `parse_choice`: consume
the bar, stop if end of input follows (no empty right alternative),
otherwise wrap in a `Choice` and continue. -/
def choice_loopF : Nat → Ast → List Char → Ast × List Char
  | 0, node, l => (node, l)
  | fuel + 1, node, l =>
    match l with
    | '|' :: rest =>
      match rest with
      | [] => (node, [])
      | _ =>
        let p := parse_concatF fuel rest
        choice_loopF fuel (.choice node p.1) p.2
    | _ => (node, l)

/-- `SimpleParser::parse_concat` (part_001 lines 69-75), fuel-indexed. -/
def parse_concatF : Nat → List Char → Ast × List Char
  | 0, l => (.null, l)
  | fuel + 1, l =>
    let p := parse_primaryF fuel l
    concat_loopF fuel p.1 p.2

/-- The `while (is_primary(input.peek()))` loop of `parse_concat`. -/
def concat_loopF : Nat → Ast → List Char → Ast × List Char
  | 0, node, l => (node, l)
  | fuel + 1, node, l =>
    if is_primary l.head? then
      let p := parse_primaryF fuel l
      concat_loopF fuel (.concat node p.1) p.2
    else (node, l)

/-- `SimpleParser::parse_primary` (part_001 lines 77-104), fuel-indexed.
`input.get()` at end of input yields `eof`, which falls through every
special case to the literal branch, producing `SingleCharacter((char)-1)`.
On `'('`, a following `'?'` is consumed; only if the next character is
`':'` is the group non-capturing, otherwise the `'?'` is silently
discarded and the group still capturing.  After the group,
`input.get()` skips the `')'` (`List.tail` here: at end of input the
failed `get` consumes nothing observable). -/
def parse_primaryF : Nat → List Char → Ast × List Char
  | 0, l => (.null, l)
  | fuel + 1, l =>
    match l with
    | [] => parse_quantifier (.singleCharacter eofChar) []
    | c :: rest =>
      match c, rest with
      | '\\', d :: rest2 => parse_quantifier (.singleCharacter d) rest2
      | '.', _ => parse_quantifier (.leaf (fun _ => true)) rest
      | '[', _ =>
        let p := parse_bracket rest
        parse_quantifier p.1 p.2
      | '(', _ =>
        -- bool capture = true; if (peek == '?') { get; if (peek == ':')
        -- { get; capture = false; } }
        let q : Bool × List Char :=
          if rest.head? = some '?' then
            (if rest.tail.head? = some ':' then (false, rest.tail.tail)
             else (true, rest.tail))
          else (true, rest)
        let p := parse_choiceF fuel q.2
        let node := if q.1 then Ast.subexpression p.1 else p.1
        parse_quantifier node p.2.tail
      | _, _ => parse_quantifier (.singleCharacter c) rest

end

/-- Fuel budget for a whole parse: the call tree of the five mutual
functions decrements the fuel once per call, nests at most five calls
deep without consuming input, and consumes at least one character before
recursing at equal depth, so `5 * length + 5` strictly dominates. -/
def parseFuel (l : List Char) : Nat := 5 * l.length + 5

/-- `SimpleParser::parse` (part_001 lines 52-56).  The `!input` guard
never fires for a fresh string stream, so the result is the
`parse_choice` of the whole input (`Ast.null` models the null pointer
that a failed parse would return). -/
def SimpleParser.parse (l : List Char) : Ast :=
  (parse_choiceF (parseFuel l) l).1

/-- `Parser::compile` (part_001 lines 34-46): parse, then build; a null
parse yields `NFA()` (this is `Ast.null.build`).  The `std::move` of the
result is the identity in the model. -/
def Parser.compile (l : List Char) (w : World) : World × Nat :=
  (SimpleParser.parse l).build w

/-- `RegEx::full_match` (regex.cpp lines 37-42): compile if there is no
cached automaton, then — the body is the deliberately unfinished
`// TODO run the NFA ...` — return `false` unconditionally. -/
def RegEx.full_match (pattern _string : List Char) : Bool :=
  let _compiled := Parser.compile pattern World.empty
  false

/-- Modelled from the spec: the full-string matching loop of §4.4
(`accept(pattern_text, input_text)`), the one deliberately unfinished
integration point of the reference (`RegEx::full_match`'s TODO):
compile the pattern once, construct one simulator, feed every character
in order via `step`, then require `acceptable()`. -/
def accept (pattern text : List Char) : Bool :=
  let p := Parser.compile pattern World.empty
  run_nfa p.1 p.2 text

end regex

/-! ## Lemmas about the worklist epsilon-closure -/

namespace regex

/-- Membership in `ascNodes` is membership in the set. -/
theorem mem_ascNodes {s : Finset Nat} {n : Nat} : n ∈ ascNodes s ↔ n ∈ s := by
  unfold ascNodes
  simp only [List.mem_filter, List.mem_range, decide_eq_true_eq]
  constructor
  · exact fun h => h.2
  · intro hn
    exact ⟨Nat.lt_succ_of_le (Finset.le_sup (f := id) hn), hn⟩

/-- A node's epsilon targets are recorded in `allEps`. -/
theorem empty_transitions_subset_allEps (heap : Heap) (n : Nat) :
    (lookupNode heap n).empty_transitions ⊆ allEps heap := by
  induction heap with
  | nil => simp [lookupNode, emptyNodeData]
  | cons e t ih =>
    obtain ⟨m, d⟩ := e
    by_cases hm : m = n
    · simp only [lookupNode, allEps, if_pos hm]
      exact Finset.subset_union_left
    · simp only [lookupNode, allEps, if_neg hm]
      exact ih.trans Finset.subset_union_right

/-- Any reference's epsilon targets lie inside `allRefs`. -/
theorem epsRefs_subset_allRefs (heap : Heap) (r : NodeRef) :
    epsRefs heap r ⊆ allRefs heap := by
  cases r with
  | none => simp [epsRefs]
  | some n =>
    exact Finset.image_subset_image (empty_transitions_subset_allEps heap n)

/-- `epsRefs` never produces a null reference. -/
theorem none_not_mem_epsRefs (heap : Heap) (r : NodeRef) :
    none ∉ epsRefs heap r := by
  cases r with
  | none => simp [epsRefs]
  | some n => simp [epsRefs]

/-- `refOfKey` undoes `refKey`. -/
theorem refOfKey_refKey (r : NodeRef) : refOfKey (refKey r) = r := by
  cases r <;> simp [refKey, refOfKey]

/-- The popped element of a non-empty worklist belongs to it. -/
theorem pickRef_mem (s : NodeList) (h : s.Nonempty) : pickRef s h ∈ s := by
  unfold pickRef
  have hmem := (s.image refKey).min'_mem (h.image refKey)
  obtain ⟨a, ha, hk⟩ := Finset.mem_image.1 hmem
  rw [← hk, refOfKey_refKey]
  exact ha

/-- A state of measure zero has an empty worklist. -/
theorem nodeMu_eq_zero {heap : Heap} {s o : NodeList}
    (h : nodeMu heap s o = 0) : s = ∅ := by
  unfold nodeMu at h
  have hA : (s ∪ allRefs heap) \ o = ∅ := by
    have := Nat.eq_zero_of_add_eq_zero_right h
    exact Finset.card_eq_zero.1 (by omega)
  have hI : s ∩ o = ∅ := Finset.card_eq_zero.1 (Nat.eq_zero_of_add_eq_zero_left h)
  ext x
  simp only [Finset.not_mem_empty, iff_false]
  intro hx
  by_cases hxo : x ∈ o
  · have hx2 : x ∈ s ∩ o := Finset.mem_inter.2 ⟨hx, hxo⟩
    rw [hI] at hx2
    exact absurd hx2 (Finset.not_mem_empty x)
  · have hx2 : x ∈ (s ∪ allRefs heap) \ o :=
      Finset.mem_sdiff.2 ⟨Finset.mem_union_left _ hx, hxo⟩
    rw [hA] at hx2
    exact absurd hx2 (Finset.not_mem_empty x)

/-- Null is not an epsilon target. -/
theorem none_not_mem_allRefs (heap : Heap) : none ∉ allRefs heap := by
  simp [allRefs]

/-- One unfolding of the loop body when the popped reference is null. -/
theorem expand_empty_step_eq_none (heap : Heap) (s o : NodeList) (h : s.Nonempty)
    (hcur : pickRef s h = none) :
    expand_empty_step heap (s, o) = (s.erase none, o) := by
  unfold expand_empty_step
  rw [dif_pos h, hcur]

/-- One unfolding of the loop body when the popped reference is a node. -/
theorem expand_empty_step_eq_some (heap : Heap) (s o : NodeList) (h : s.Nonempty)
    (n : Nat) (hcur : pickRef s h = some n) :
    expand_empty_step heap (s, o) =
      (s.erase (some n) ∪ (epsRefs heap (some n)).filter
          (fun a => a ∉ s.erase (some n) ∧ a ∉ insert (some n) o),
        insert (some n) o) := by
  unfold expand_empty_step
  rw [dif_pos h, hcur]

/-- The loop body does nothing on an empty worklist. -/
theorem expand_empty_step_empty (heap : Heap) (s o : NodeList) (h : ¬s.Nonempty) :
    expand_empty_step heap (s, o) = (s, o) := by
  unfold expand_empty_step
  rw [dif_neg h]

/-- Each iteration on a non-empty worklist strictly decreases the
measure: a popped non-null reference either enters the output for the
first time (shrinking the yet-to-output part) or is discarded as a
duplicate (shrinking the queued-but-output part); a popped null is
removed for good. -/
theorem nodeMu_step (heap : Heap) (s o : NodeList) (h : s.Nonempty) :
    nodeMu heap (expand_empty_step heap (s, o)).1 (expand_empty_step heap (s, o)).2 + 1 ≤
      nodeMu heap s o := by
  have hmem : pickRef s h ∈ s := pickRef_mem s h
  rcases hcur : pickRef s h with _ | n
  · -- popped a null reference
    rw [hcur] at hmem
    rw [expand_empty_step_eq_none heap s o h hcur]
    show nodeMu heap (s.erase none) o + 1 ≤ nodeMu heap s o
    by_cases ho : (none : NodeRef) ∈ o
    · have hA : (s.erase none ∪ allRefs heap) \ o = (s ∪ allRefs heap) \ o := by
        ext x
        simp only [Finset.mem_sdiff, Finset.mem_union, Finset.mem_erase]
        constructor
        · rintro ⟨hx | hx, hxo⟩
          · exact ⟨Or.inl hx.2, hxo⟩
          · exact ⟨Or.inr hx, hxo⟩
        · rintro ⟨hx | hx, hxo⟩
          · refine ⟨Or.inl ⟨?_, hx⟩, hxo⟩
            rintro rfl
            exact hxo ho
          · exact ⟨Or.inr hx, hxo⟩
      have hI : s.erase none ∩ o = (s ∩ o).erase none := by
        ext x
        simp only [Finset.mem_inter, Finset.mem_erase]
        tauto
      have hmemI : (none : NodeRef) ∈ s ∩ o := Finset.mem_inter.2 ⟨hmem, ho⟩
      have hcard := Finset.card_erase_add_one hmemI
      unfold nodeMu
      rw [hA, hI]
      omega
    · have hA : (s.erase none ∪ allRefs heap) \ o =
          ((s ∪ allRefs heap) \ o).erase none := by
        ext x
        simp only [Finset.mem_sdiff, Finset.mem_union, Finset.mem_erase]
        constructor
        · rintro ⟨hx | hx, hxo⟩
          · exact ⟨hx.1, Or.inl hx.2, hxo⟩
          · refine ⟨?_, Or.inr hx, hxo⟩
            rintro rfl
            exact none_not_mem_allRefs heap hx
        · rintro ⟨hne, hx | hx, hxo⟩
          · exact ⟨Or.inl ⟨hne, hx⟩, hxo⟩
          · exact ⟨Or.inr hx, hxo⟩
      have hmemA : (none : NodeRef) ∈ (s ∪ allRefs heap) \ o :=
        Finset.mem_sdiff.2 ⟨Finset.mem_union_left _ hmem, ho⟩
      have hcard := Finset.card_erase_add_one hmemA
      have hIle : (s.erase none ∩ o).card ≤ (s ∩ o).card :=
        Finset.card_le_card
          (Finset.inter_subset_inter (Finset.erase_subset _ _) (le_refl o))
      unfold nodeMu
      rw [hA]
      omega
  · -- popped a real node
    rw [hcur] at hmem
    rw [expand_empty_step_eq_some heap s o h n hcur]
    set F := (epsRefs heap (some n)).filter
      (fun a => a ∉ s.erase (some n) ∧ a ∉ insert (some n) o) with hF
    show nodeMu heap (s.erase (some n) ∪ F) (insert (some n) o) + 1 ≤ nodeMu heap s o
    have hFR : F ⊆ allRefs heap :=
      (Finset.filter_subset _ _).trans (epsRefs_subset_allRefs heap (some n))
    have hFo : ∀ x ∈ F, x ∉ insert (some n : NodeRef) o := by
      intro x hx
      exact (Finset.mem_filter.1 hx).2.2
    by_cases ho : (some n : NodeRef) ∈ o
    · have hins : insert (some n : NodeRef) o = o := Finset.insert_eq_self.2 ho
      have hA : ((s.erase (some n) ∪ F) ∪ allRefs heap) \ o ⊆
          (s ∪ allRefs heap) \ o := by
        refine Finset.sdiff_subset_sdiff ?_ (le_refl o)
        refine Finset.union_subset (Finset.union_subset ?_ ?_) ?_
        · exact (Finset.erase_subset _ _).trans Finset.subset_union_left
        · exact hFR.trans Finset.subset_union_right
        · exact Finset.subset_union_right
      have hI : (s.erase (some n) ∪ F) ∩ o = (s ∩ o).erase (some n) := by
        ext x
        constructor
        · intro hx
          obtain ⟨hx1, hxo⟩ := Finset.mem_inter.1 hx
          rcases Finset.mem_union.1 hx1 with hx2 | hx2
          · obtain ⟨hne, hs⟩ := Finset.mem_erase.1 hx2
            exact Finset.mem_erase.2 ⟨hne, Finset.mem_inter.2 ⟨hs, hxo⟩⟩
          · exact absurd (Finset.mem_insert_of_mem hxo) (hFo x hx2)
        · intro hx
          obtain ⟨hne, hx2⟩ := Finset.mem_erase.1 hx
          obtain ⟨hs, hxo⟩ := Finset.mem_inter.1 hx2
          exact Finset.mem_inter.2
            ⟨Finset.mem_union_left _ (Finset.mem_erase.2 ⟨hne, hs⟩), hxo⟩
      have hmemI : (some n : NodeRef) ∈ s ∩ o := Finset.mem_inter.2 ⟨hmem, ho⟩
      have hcard := Finset.card_erase_add_one hmemI
      have hAle := Finset.card_le_card hA
      unfold nodeMu
      rw [hins, hI]
      omega
    · have hA : ((s.erase (some n) ∪ F) ∪ allRefs heap) \ insert (some n) o ⊆
          ((s ∪ allRefs heap) \ o).erase (some n) := by
        intro x hx
        obtain ⟨hx1, hx2⟩ := Finset.mem_sdiff.1 hx
        have hxne : x ≠ some n := by
          rintro rfl
          exact hx2 (Finset.mem_insert_self _ _)
        have hxo : x ∉ o := fun hxo => hx2 (Finset.mem_insert_of_mem hxo)
        refine Finset.mem_erase.2 ⟨hxne, Finset.mem_sdiff.2 ⟨?_, hxo⟩⟩
        rcases Finset.mem_union.1 hx1 with hx3 | hx3
        · rcases Finset.mem_union.1 hx3 with hx4 | hx4
          · exact Finset.mem_union_left _ (Finset.mem_of_mem_erase hx4)
          · exact Finset.mem_union_right _ (hFR hx4)
        · exact Finset.mem_union_right _ hx3
      have hmemA : (some n : NodeRef) ∈ (s ∪ allRefs heap) \ o :=
        Finset.mem_sdiff.2 ⟨Finset.mem_union_left _ hmem, ho⟩
      have hcard := Finset.card_erase_add_one hmemA
      have hAle := Finset.card_le_card hA
      have hIsub : (s.erase (some n) ∪ F) ∩ insert (some n) o ⊆ s ∩ o := by
        intro x hx
        obtain ⟨hx1, hx2⟩ := Finset.mem_inter.1 hx
        rcases Finset.mem_union.1 hx1 with hx3 | hx3
        · obtain ⟨hne, hs⟩ := Finset.mem_erase.1 hx3
          rcases Finset.mem_insert.1 hx2 with heq | hxo
          · exact absurd heq hne
          · exact Finset.mem_inter.2 ⟨hs, hxo⟩
        · exact absurd hx2 (hFo x hx3)
      have hIle := Finset.card_le_card hIsub
      unfold nodeMu
      omega

/-- The output set only grows along an iteration. -/
theorem expand_empty_step_snd_mono (heap : Heap) (s o : NodeList) :
    o ⊆ (expand_empty_step heap (s, o)).2 := by
  by_cases h : s.Nonempty
  · rcases hcur : pickRef s h with _ | n
    · rw [expand_empty_step_eq_none heap s o h hcur]
    · rw [expand_empty_step_eq_some heap s o h n hcur]
      exact Finset.subset_insert _ _
  · rw [expand_empty_step_empty heap s o h]

/-- A non-null queued reference survives an iteration: it is still
queued, or it has entered the output. -/
theorem expand_empty_step_mem (heap : Heap) (s o : NodeList) (h : s.Nonempty)
    (a : NodeRef) (ha : a ∈ s) (hne : a ≠ none) :
    a ∈ (expand_empty_step heap (s, o)).1 ∨ a ∈ (expand_empty_step heap (s, o)).2 := by
  rcases hcur : pickRef s h with _ | n
  · rw [expand_empty_step_eq_none heap s o h hcur]
    exact Or.inl (Finset.mem_erase.2 ⟨hne, ha⟩)
  · rw [expand_empty_step_eq_some heap s o h n hcur]
    by_cases hee : a = some n
    · exact Or.inr (hee ▸ Finset.mem_insert_self _ _)
    · exact Or.inl (Finset.mem_union_left _ (Finset.mem_erase.2 ⟨hee, ha⟩))

/-- An iteration preserves the invariant that every epsilon target of an
output node is queued or output. -/
theorem expand_empty_step_closed (heap : Heap) (s o : NodeList)
    (hinv : ∀ x ∈ o, epsRefs heap x ⊆ s ∪ o) :
    ∀ x ∈ (expand_empty_step heap (s, o)).2,
      epsRefs heap x ⊆ (expand_empty_step heap (s, o)).1 ∪ (expand_empty_step heap (s, o)).2 := by
  by_cases h : s.Nonempty
  · rcases hcur : pickRef s h with _ | n
    · rw [expand_empty_step_eq_none heap s o h hcur]
      intro x hx y hy
      have hyne : y ≠ none := by
        rintro rfl
        exact none_not_mem_epsRefs heap x hy
      rcases Finset.mem_union.1 (hinv x hx hy) with hys | hyo
      · exact Finset.mem_union_left _ (Finset.mem_erase.2 ⟨hyne, hys⟩)
      · exact Finset.mem_union_right _ hyo
    · rw [expand_empty_step_eq_some heap s o h n hcur]
      intro x hx y hy
      rcases Finset.mem_insert.1 hx with rfl | hxo
      · -- the freshly output node: every target is queued, fresh or output
        by_cases h1 : y ∈ s.erase (some n)
        · exact Finset.mem_union_left _ (Finset.mem_union_left _ h1)
        · by_cases h2 : y ∈ insert (some n : NodeRef) o
          · exact Finset.mem_union_right _ h2
          · exact Finset.mem_union_left _ (Finset.mem_union_right _
              (Finset.mem_filter.2 ⟨hy, h1, h2⟩))
      · have hyne : y ≠ none := by
          rintro rfl
          exact none_not_mem_epsRefs heap x hy
        rcases Finset.mem_union.1 (hinv x hxo hy) with hys | hyo
        · by_cases hee : y = some n
          · exact Finset.mem_union_right _ (hee ▸ Finset.mem_insert_self _ _)
          · exact Finset.mem_union_left _
              (Finset.mem_union_left _ (Finset.mem_erase.2 ⟨hee, hys⟩))
        · exact Finset.mem_union_right _ (Finset.mem_insert_of_mem hyo)
  · rw [expand_empty_step_empty heap s o h]
    intro x hx y hy
    exact hinv x hx hy

/-- An iteration stays inside a closed superset `U` (null queued
references allowed). -/
theorem expand_empty_step_subset (heap : Heap) (s o U : NodeList)
    (hs : s ⊆ U ∪ {none}) (ho : o ⊆ U)
    (hU : ∀ u ∈ U, epsRefs heap u ⊆ U) :
    (expand_empty_step heap (s, o)).1 ⊆ U ∪ {none} ∧
      (expand_empty_step heap (s, o)).2 ⊆ U := by
  by_cases h : s.Nonempty
  · rcases hcur : pickRef s h with _ | n
    · rw [expand_empty_step_eq_none heap s o h hcur]
      exact ⟨(Finset.erase_subset _ _).trans hs, ho⟩
    · rw [expand_empty_step_eq_some heap s o h n hcur]
      have hnU : (some n : NodeRef) ∈ U := by
        have := hs (pickRef_mem s h)
        rw [hcur] at this
        rcases Finset.mem_union.1 this with hx | hx
        · exact hx
        · exact absurd (Finset.mem_singleton.1 hx) (by simp)
      constructor
      · refine Finset.union_subset ((Finset.erase_subset _ _).trans hs) ?_
        refine ((Finset.filter_subset _ _).trans ?_)
        exact (hU _ hnU).trans Finset.subset_union_left
      · exact Finset.insert_subset hnU ho
  · rw [expand_empty_step_empty heap s o h]
    exact ⟨hs, ho⟩

/-- An iteration never outputs a null reference. -/
theorem expand_empty_step_none (heap : Heap) (s o : NodeList)
    (h : (none : NodeRef) ∉ o) : (none : NodeRef) ∉ (expand_empty_step heap (s, o)).2 := by
  by_cases hs : s.Nonempty
  · rcases hcur : pickRef s hs with _ | n
    · rw [expand_empty_step_eq_none heap s o hs hcur]
      exact h
    · rw [expand_empty_step_eq_some heap s o hs n hcur]
      intro hmem
      rcases Finset.mem_insert.1 hmem with heq | hmem2
      · exact Option.noConfusion heq
      · exact h hmem2
  · rw [expand_empty_step_empty heap s o hs]
    exact h

/-- Whatever is already output stays in the final closure. -/
theorem mem_expand_empty_fuel_of_output (heap : Heap) :
    ∀ fuel s o a, a ∈ o → a ∈ expand_empty_fuel heap fuel s o := by
  intro fuel
  induction fuel with
  | zero => intro s o a ha; exact ha
  | succ f ih =>
    intro s o a ha
    rw [expand_empty_fuel]
    by_cases hs : s.Nonempty
    · rw [if_pos hs]
      exact ih _ _ _ (expand_empty_step_snd_mono heap s o ha)
    · rw [if_neg hs]
      exact ha

/-- Under sufficient fuel, every non-null queued reference ends up in
the closure. -/
theorem mem_expand_empty_fuel_of_source (heap : Heap) :
    ∀ fuel s o a, nodeMu heap s o ≤ fuel → a ∈ s → a ≠ none →
      a ∈ expand_empty_fuel heap fuel s o := by
  intro fuel
  induction fuel with
  | zero =>
    intro s o a hfuel ha _
    rw [nodeMu_eq_zero (Nat.le_zero.1 hfuel)] at ha
    exact absurd ha (Finset.not_mem_empty a)
  | succ f ih =>
    intro s o a hfuel ha hne
    have hs : s.Nonempty := ⟨a, ha⟩
    rw [expand_empty_fuel, if_pos hs]
    have hmu := nodeMu_step heap s o hs
    rcases expand_empty_step_mem heap s o hs a ha hne with h1 | h1
    · exact ih _ _ _ (by omega) h1 hne
    · exact mem_expand_empty_fuel_of_output heap f _ _ a h1

/-- Under sufficient fuel and the queued-or-output invariant, the
closure is closed under epsilon transitions. -/
theorem expand_empty_fuel_closed (heap : Heap) :
    ∀ fuel s o, nodeMu heap s o ≤ fuel →
      (∀ x ∈ o, epsRefs heap x ⊆ s ∪ o) →
      ∀ a ∈ expand_empty_fuel heap fuel s o,
        epsRefs heap a ⊆ expand_empty_fuel heap fuel s o := by
  intro fuel
  induction fuel with
  | zero =>
    intro s o hfuel hinv a ha y hy
    have hse := nodeMu_eq_zero (Nat.le_zero.1 hfuel)
    have := hinv a ha hy
    rw [hse] at this
    simpa using this
  | succ f ih =>
    intro s o hfuel hinv a ha y hy
    rw [expand_empty_fuel] at ha ⊢
    by_cases hs : s.Nonempty
    · rw [if_pos hs] at ha ⊢
      have hmu := nodeMu_step heap s o hs
      exact ih _ _ (by omega) (expand_empty_step_closed heap s o hinv) a ha hy
    · rw [if_neg hs] at ha ⊢
      have hse := Finset.not_nonempty_iff_eq_empty.1 hs
      have := hinv a ha hy
      rw [hse] at this
      simpa using this

/-- The closure stays inside any closed superset of the seed. -/
theorem expand_empty_fuel_minimal (heap : Heap) :
    ∀ fuel s o U, s ⊆ U ∪ {none} → o ⊆ U →
      (∀ u ∈ U, epsRefs heap u ⊆ U) →
      expand_empty_fuel heap fuel s o ⊆ U := by
  intro fuel
  induction fuel with
  | zero => intro s o U _ ho _; exact ho
  | succ f ih =>
    intro s o U hs ho hU
    rw [expand_empty_fuel]
    by_cases hns : s.Nonempty
    · rw [if_pos hns]
      obtain ⟨h1, h2⟩ := expand_empty_step_subset heap s o U hs ho hU
      exact ih _ _ U h1 h2 hU
    · rw [if_neg hns]
      exact ho

/-- The closure never contains a null reference. -/
theorem none_not_mem_expand_empty_fuel (heap : Heap) :
    ∀ fuel s o, (none : NodeRef) ∉ o →
      (none : NodeRef) ∉ expand_empty_fuel heap fuel s o := by
  intro fuel
  induction fuel with
  | zero => intro s o h; exact h
  | succ f ih =>
    intro s o h
    rw [expand_empty_fuel]
    by_cases hs : s.Nonempty
    · rw [if_pos hs]
      exact ih _ _ (expand_empty_step_none heap s o h)
    · rw [if_neg hs]
      exact h

/-- The fuel budget used by `expand_empty` dominates the measure. -/
theorem nodeMu_le_budget (heap : Heap) (s : NodeList) :
    nodeMu heap s ∅ ≤ 2 * (s ∪ allRefs heap).card + 1 := by
  unfold nodeMu
  rw [Finset.sdiff_empty, Finset.inter_empty, Finset.card_empty]
  omega

/-- A non-null seed reference belongs to its closure. -/
theorem mem_expand_empty (heap : Heap) (s : NodeList) (a : NodeRef)
    (ha : a ∈ s) (hne : a ≠ none) : a ∈ expand_empty heap s :=
  mem_expand_empty_fuel_of_source heap _ s ∅ a (nodeMu_le_budget heap s) ha hne

/-- The closure is closed under epsilon transitions. -/
theorem expand_empty_closed (heap : Heap) (s : NodeList) :
    ∀ a ∈ expand_empty heap s, epsRefs heap a ⊆ expand_empty heap s :=
  expand_empty_fuel_closed heap _ s ∅ (nodeMu_le_budget heap s) (by simp)

/-- The closure contains no null reference. -/
theorem none_not_mem_expand_empty (heap : Heap) (s : NodeList) :
    (none : NodeRef) ∉ expand_empty heap s :=
  none_not_mem_expand_empty_fuel heap _ s ∅ (Finset.not_mem_empty _)

/-- The closure of a seed contained (null apart) in a closed set `U`
stays inside `U`. -/
theorem expand_empty_minimal (heap : Heap) (s U : NodeList)
    (hs : s ⊆ U ∪ {none}) (hU : ∀ u ∈ U, epsRefs heap u ⊆ U) :
    expand_empty heap s ⊆ U :=
  expand_empty_fuel_minimal heap _ s ∅ U hs (Finset.empty_subset U) hU

/-- Relates the fuel-indexed loop to plain iteration of the loop body:
under sufficient fuel the body reaches an empty worklist in finitely
many iterations, with the loop's result as output. -/
theorem expand_empty_fuel_iterate (heap : Heap) :
    ∀ fuel s o, nodeMu heap s o ≤ fuel →
      ∃ k, ((expand_empty_step heap)^[k] (s, o)).1 = ∅ ∧
        ((expand_empty_step heap)^[k] (s, o)).2 = expand_empty_fuel heap fuel s o := by
  intro fuel
  induction fuel with
  | zero =>
    intro s o hfuel
    refine ⟨0, ?_, rfl⟩
    simpa using nodeMu_eq_zero (Nat.le_zero.1 hfuel)
  | succ f ih =>
    intro s o hfuel
    by_cases hs : s.Nonempty
    · have hmu := nodeMu_step heap s o hs
      obtain ⟨k, h1, h2⟩ :=
        ih (expand_empty_step heap (s, o)).1 (expand_empty_step heap (s, o)).2 (by omega)
      refine ⟨k + 1, ?_, ?_⟩
      · rw [Function.iterate_succ_apply]
        rw [Prod.mk.eta] at h1
        exact h1
      · rw [Function.iterate_succ_apply]
        rw [Prod.mk.eta] at h2
        rw [h2, expand_empty_fuel, if_pos hs]
    · have hse := Finset.not_nonempty_iff_eq_empty.1 hs
      refine ⟨0, hse, ?_⟩
      rw [expand_empty_fuel, if_neg hs]
      rfl

/-- The loop body makes no progress on an empty worklist, so the closure
of the empty set is empty. -/
theorem expand_empty_fuel_empty_source (heap : Heap) (fuel : Nat) (o : NodeList) :
    expand_empty_fuel heap fuel ∅ o = o := by
  cases fuel with
  | zero => rfl
  | succ f => rw [expand_empty_fuel, if_neg (by simp)]

/-- The epsilon closure of the empty set is empty. -/
theorem expand_empty_of_empty (heap : Heap) : expand_empty heap ∅ = ∅ :=
  expand_empty_fuel_empty_source heap _ ∅

/-- Stepping the simulator from the empty state yields the empty state. -/
theorem expand_of_empty (heap : Heap) (c : Char) : expand heap ∅ c = ∅ := by
  unfold expand
  rw [Finset.biUnion_empty]
  exact expand_empty_of_empty heap

/-- A dead simulator stays dead along any input. -/
theorem foldl_expand_of_empty (heap : Heap) (l : List Char) :
    l.foldl (fun state c => expand heap state c) ∅ = ∅ := by
  induction l with
  | nil => rfl
  | cons c t ih =>
    rw [List.foldl_cons, expand_of_empty heap c]
    exact ih

/-- The empty state never accepts. -/
theorem acceptable_empty (w : World) (g : Nat) : acceptable w g ∅ = false := by
  unfold acceptable
  cases w.nfaOutput g with
  | none => rfl
  | some o => simp

/-- Reading back a just-written node. -/
theorem lookup_setNode_same (h : Heap) (n : Nat) (d : NodeData) :
    lookupNode (setNode h n d) n = d := by
  simp [setNode, lookupNode]

/-- Writing one node leaves the others unchanged. -/
theorem lookup_setNode_other (h : Heap) {m n : Nat} (hne : m ≠ n) (d : NodeData) :
    lookupNode (setNode h n d) m = lookupNode h m := by
  simp [setNode, lookupNode, Ne.symm hne]

/-- The back-reference loop of `acquire_nodes` leaves unlisted nodes
unchanged. -/
theorem foldl_setGraph_not_mem (g : Nat) :
    ∀ (L : List Nat) (h0 : Heap) (n : Nat), n ∉ L →
      lookupNode (L.foldl
        (fun h x => setNode h x { lookupNode h x with graph := some g }) h0) n =
        lookupNode h0 n := by
  intro L
  induction L with
  | nil => intro h0 n _; rfl
  | cons m t ih =>
    intro h0 n hn
    rw [List.foldl_cons]
    have h1 : n ∉ t := fun h => hn (List.mem_cons_of_mem m h)
    have h2 : n ≠ m := fun h => hn (h ▸ List.mem_cons_self m t)
    rw [ih _ n h1, lookup_setNode_other h0 h2]

/-- The back-reference loop of `acquire_nodes` repoints every listed
node. -/
theorem foldl_setGraph_mem (g : Nat) :
    ∀ (L : List Nat) (h0 : Heap) (n : Nat), n ∈ L →
      (lookupNode (L.foldl
        (fun h x => setNode h x { lookupNode h x with graph := some g }) h0) n).graph =
        some g := by
  intro L
  induction L with
  | nil => intro h0 n hn; exact absurd hn (List.not_mem_nil n)
  | cons m t ih =>
    intro h0 n hn
    rw [List.foldl_cons]
    by_cases hmem : n ∈ t
    · exact ih _ n hmem
    · have hnm : n = m := by
        rcases List.mem_cons.1 hn with h1 | h1
        · exact h1
        · exact absurd h1 hmem
      subst hnm
      rw [foldl_setGraph_not_mem g t _ n hmem, lookup_setNode_same]

theorem remove_node_input_spec (v : World) (g n : Nat)
    (hg : (lookupNode v.heap n).graph = some g)
    (hi : v.nfaInput g = some n) (ho : v.nfaOutput g ≠ some n) :
    (v.remove_node g n).nfaInput = Function.update v.nfaInput g none ∧
    (v.remove_node g n).nfaOutput = v.nfaOutput ∧
    (v.remove_node g n).nfaNodes = Function.update v.nfaNodes g ((v.nfaNodes g).erase n) ∧
    ∀ m, m ≠ n → lookupNode (v.remove_node g n).heap m = lookupNode v.heap m := by
  unfold World.remove_node
  rw [if_pos hg]
  dsimp only
  rw [if_pos hi, if_neg ho]
  refine ⟨rfl, rfl, rfl, ?_⟩
  intro m hm
  exact lookup_setNode_other v.heap hm _

theorem remove_node_output_spec (v : World) (g n : Nat)
    (hg : (lookupNode v.heap n).graph = some g)
    (hi : v.nfaInput g ≠ some n) (ho : v.nfaOutput g = some n) :
    (v.remove_node g n).nfaInput = v.nfaInput ∧
    (v.remove_node g n).nfaOutput = Function.update v.nfaOutput g none ∧
    (v.remove_node g n).nfaNodes = Function.update v.nfaNodes g ((v.nfaNodes g).erase n) ∧
    (∀ m, m ≠ n → lookupNode (v.remove_node g n).heap m = lookupNode v.heap m) ∧
    lookupNode (v.remove_node g n).heap n = { lookupNode v.heap n with graph := none } := by
  unfold World.remove_node
  rw [if_pos hg]
  dsimp only
  rw [if_neg hi, if_pos ho]
  refine ⟨rfl, rfl, rfl, ?_, ?_⟩
  · intro m hm
    exact lookup_setNode_other v.heap hm _
  · exact lookup_setNode_same v.heap n _

theorem delete_node_eq (v : World) (n g : Nat)
    (hg : (lookupNode v.heap n).graph = some g) :
    v.delete_node n = v.remove_node g n := by
  unfold World.delete_node
  rw [hg]

theorem insert_node_foreign_spec (v : World) (g n g2 : Nat)
    (hg : (lookupNode v.heap n).graph = some g2) (hne : g2 ≠ g)
    (hi : v.nfaInput g2 ≠ some n) (ho : v.nfaOutput g2 = some n) :
    (v.insert_node g n).nfaInput = v.nfaInput ∧
    (v.insert_node g n).nfaOutput = Function.update v.nfaOutput g2 none ∧
    (v.insert_node g n).nfaNodes =
      (fun nodes => Function.update nodes g (insert n (nodes g)))
        (Function.update v.nfaNodes g2 ((v.nfaNodes g2).erase n)) ∧
    (∀ m, m ≠ n → lookupNode (v.insert_node g n).heap m = lookupNode v.heap m) ∧
    (lookupNode (v.insert_node g n).heap n).graph = some g := by
  have hcond : ¬((lookupNode v.heap n).graph = some g) := by
    rw [hg]
    intro h
    exact hne (Option.some.inj h)
  obtain ⟨r1, r2, r3, r4, r5⟩ := remove_node_output_spec v g2 n hg hi ho
  unfold World.insert_node
  rw [if_neg hcond, hg]
  dsimp only
  refine ⟨r1, r2, ?_, ?_, ?_⟩
  · rw [r3]
  · intro m hm
    calc lookupNode (setNode (v.remove_node g2 n).heap n
          { lookupNode (v.remove_node g2 n).heap n with graph := some g }) m
        = lookupNode (v.remove_node g2 n).heap m := lookup_setNode_other _ hm _
      _ = lookupNode v.heap m := r4 m hm
  · rw [lookup_setNode_same]

theorem node_merge_registry (w : World) (x y : Nat) :
    (w.node_merge x y).nfaInput = w.nfaInput ∧
    (w.node_merge x y).nfaOutput = w.nfaOutput ∧
    (w.node_merge x y).nfaNodes = w.nfaNodes :=
  ⟨rfl, rfl, rfl⟩

theorem node_merge_lookup_other (w : World) {m x : Nat} (hm : m ≠ x) (y : Nat) :
    lookupNode (w.node_merge x y).heap m = lookupNode w.heap m := by
  unfold World.node_merge
  exact lookup_setNode_other w.heap hm _

theorem set_output_some_spec (v : World) (g n : Nat) :
    (v.set_output g (some n)).nfaInput = (v.insert_node g n).nfaInput ∧
    (v.set_output g (some n)).nfaOutput =
      Function.update (v.insert_node g n).nfaOutput g (some n) ∧
    (v.set_output g (some n)).nfaNodes = (v.insert_node g n).nfaNodes ∧
    (v.set_output g (some n)).heap = (v.insert_node g n).heap :=
  ⟨rfl, rfl, rfl, rfl⟩

theorem acquire_nodes_spec (v : World) (g other : Nat) :
    (v.acquire_nodes g other).nfaInput = Function.update v.nfaInput other none ∧
    (v.acquire_nodes g other).nfaOutput = Function.update v.nfaOutput other none ∧
    (v.acquire_nodes g other).nfaNodes =
      Function.update (Function.update v.nfaNodes g (v.nfaNodes g ∪ v.nfaNodes other))
        other ∅ ∧
    (v.acquire_nodes g other).heap =
      (ascNodes (v.nfaNodes other)).foldl
        (fun h n => setNode h n { lookupNode h n with graph := some g }) v.heap :=
  ⟨rfl, rfl, rfl, rfl⟩

end regex

/-! ## Claim theorems -/

namespace regex

/-- Claim C7: the simulator's epsilon closure is idempotent — for every
heap of nodes and every set `S` of node references,
`expand_empty (expand_empty S) = expand_empty S`. -/
theorem expand_empty_idempotent_C7 (heap : Heap) (S : NodeList) :
    expand_empty heap (expand_empty heap S) = expand_empty heap S := by
  ext a
  constructor
  · intro ha
    exact expand_empty_minimal heap _ _
      (fun x hx => Finset.mem_union_left _ hx) (expand_empty_closed heap S) ha
  · intro ha
    exact mem_expand_empty heap _ a ha
      (fun he => none_not_mem_expand_empty heap S (he ▸ ha))

/-- Claim C8: the worklist expansion of `expand_empty` terminates on
every seed over the (finite) node heap — even when epsilon transitions
form cycles — because a node already output or already queued is never
re-queued: iterating the loop body reaches an empty worklist after
finitely many steps, at which point the output is exactly
`expand_empty seed`. -/
theorem expand_empty_terminates_C8 (heap : Heap) (seed : NodeList) :
    ∃ k, ((expand_empty_step heap)^[k] (seed, ∅)).1 = ∅ ∧
      ((expand_empty_step heap)^[k] (seed, ∅)).2 = expand_empty heap seed :=
  expand_empty_fuel_iterate heap _ seed ∅ (nodeMu_le_budget heap seed)

/-- Claim C10: a default-constructed NFA is exactly two fresh nodes — a
distinct input and output with no transitions — and a simulator over it
reports `acceptable() = false` after any input string, the empty one
included. -/
theorem default_nfa_rejects_C10 :
    (World.empty.new_nfa).2 = 0 ∧
    (World.empty.new_nfa).1.nfaNodes 0 = {0, 1} ∧
    (World.empty.new_nfa).1.nfaInput 0 = some 0 ∧
    (World.empty.new_nfa).1.nfaOutput 0 = some 1 ∧
    (World.empty.new_nfa).1.nfaInput 0 ≠ (World.empty.new_nfa).1.nfaOutput 0 ∧
    lookupNode (World.empty.new_nfa).1.heap 0 = ⟨[], ∅, some 0⟩ ∧
    lookupNode (World.empty.new_nfa).1.heap 1 = ⟨[], ∅, some 0⟩ ∧
    ∀ s : List Char, run_nfa (World.empty.new_nfa).1 0 s = false := by
  refine ⟨rfl, by decide, by decide, by decide, by decide, rfl, rfl, ?_⟩
  intro s
  cases s with
  | nil => decide
  | cons c t =>
    have hinit : expand_empty (World.empty.new_nfa).1.heap
        {(World.empty.new_nfa).1.nfaInput 0} = {some 0} := by decide
    have hnext : next_nodes (lookupNode (World.empty.new_nfa).1.heap 0) c = ∅ := rfl
    have hstep : expand (World.empty.new_nfa).1.heap {some 0} c = ∅ := by
      unfold expand
      rw [Finset.singleton_biUnion]
      show expand_empty (World.empty.new_nfa).1.heap
        (next_nodes (lookupNode (World.empty.new_nfa).1.heap 0) c) = ∅
      rw [hnext]
      exact expand_empty_of_empty _
    unfold run_nfa
    rw [List.foldl_cons, hinit, hstep, foldl_expand_of_empty]
    exact acceptable_empty _ 0

/-- Claim C1 (the code stub): `RegEx::full_match` is an unimplemented
TODO that returns `false` unconditionally, so for the pattern `"a"` it
returns `false` even on the text `"a"` — contradicting the claimed
end-to-end behaviour.  The spec-modelled matching loop (`accept`) over
the same compiled automaton produces exactly the claimed answers. -/
theorem full_match_stub_C1 :
    RegEx.full_match "a".toList "a".toList = false ∧
    accept "a".toList "a".toList = true ∧
    accept "a".toList "".toList = false ∧
    accept "a".toList "b".toList = false ∧
    accept "a".toList "aa".toList = false := by
  exact ⟨rfl, by decide, by decide, by decide, by decide⟩

/-- Claim C2 (the code defect): both polarity branches of
`SimpleParser::parse_bracket` return the *not-member* predicate, so the
automaton compiled from `"[abc]"` rejects the members `"a"`, `"b"`,
`"c"` and accepts the non-member `"d"` — the opposite of the claimed
behaviour (it does reject the empty string). -/
theorem bracket_polarity_C2 :
    accept "[abc]".toList "a".toList = false ∧
    accept "[abc]".toList "b".toList = false ∧
    accept "[abc]".toList "c".toList = false ∧
    accept "[abc]".toList "d".toList = true ∧
    accept "[abc]".toList "".toList = false := by
  exact ⟨by decide, by decide, by decide, by decide, by decide⟩

/-- Claim C3 (the code defect): `NFA::duplicate` never redirects the
result's `input_`/`output_` to the clones of the source's input/output —
they remain the two fresh nodes made by the `NFA()` constructor,
disconnected from the cloned graph.  For the automaton compiled from
`"a"`, the original still accepts `"a"` after duplication, while the
duplicate rejects `"a"` (and everything else); the two automata do hold
disjoint node sets (the no-aliasing half of the claim). -/
theorem duplicate_detached_io_C3 :
    (let p := Parser.compile "a".toList World.empty
     let q := p.1.duplicate p.2
     run_nfa q.1 p.2 ['a'] = true ∧
       run_nfa q.1 q.2 ['a'] = false ∧
       run_nfa q.1 q.2 [] = false ∧
       q.1.nfaNodes p.2 ∩ q.1.nfaNodes q.2 = ∅) := by
  exact ⟨by decide, by decide, by decide, by decide⟩

/-- Claim C5, counterexample: the default parser does *not* drop a
trailing backslash — `"a\"` parses to
`Concat(SingleCharacter 'a', SingleCharacter '\\')`, a different AST
than `"a"`, and the compiled automata differ on the input `"a"`. -/
theorem trailing_backslash_C5_counterexample :
    SimpleParser.parse "a\\".toList ≠ SimpleParser.parse "a".toList ∧
    accept "a\\".toList "a".toList = false ∧
    accept "a".toList "a".toList = true := by
  refine ⟨?_, by decide, by decide⟩
  intro h
  have h1 : SimpleParser.parse "a\\".toList =
      .concat (.singleCharacter 'a') (.singleCharacter '\\') := rfl
  have h2 : SimpleParser.parse "a".toList = .singleCharacter 'a' := rfl
  rw [h1, h2] at h
  exact Ast.noConfusion h

/-- Claim C5, amended: when `parse_primary` reaches a trailing backslash
with nothing following, the escape test `c == '\\' && peek != eof`
fails and the backslash falls through to the literal branch: it is
emitted as `SingleCharacter '\\'` (under any fuel).  Hence `"a\"`
parses to `Concat(SingleCharacter 'a', SingleCharacter '\\')`; its
automaton accepts exactly the two-character text `"a\"` and in
particular rejects `"a"`. -/
theorem trailing_backslash_literal_C5 :
    (∀ fuel : Nat,
      parse_primaryF (fuel + 1) ['\\'] = (.singleCharacter '\\', [])) ∧
    SimpleParser.parse "a\\".toList =
      .concat (.singleCharacter 'a') (.singleCharacter '\\') ∧
    accept "a\\".toList "a\\".toList = true ∧
    accept "a\\".toList "a".toList = false ∧
    accept "a\\".toList "".toList = false := by
  exact ⟨fun fuel => rfl, rfl, by decide, by decide, by decide⟩

/-- Claim C4, counterexample: after removing the input node of automaton
`0`, `merge` still succeeds — the C++ guard checks `output_`,
`other.input_` and `other.output_` but never `this->input_`, so the
claimed "returns false when either automaton lacks an input" is wrong. -/
theorem merge_missing_input_check_C4_counterexample :
    (let w := ((World.empty.new_nfa).1.new_nfa).1.remove_node 0 0
     w.nfaInput 0 = none ∧ w.nfaOutput 0 = some 1 ∧
       w.nfaInput 1 = some 2 ∧ w.nfaOutput 1 = some 3 ∧
       (w.merge 0 1).2 = true) := by
  exact ⟨by decide, by decide, by decide, by decide, by decide⟩

/-- Claim C4, amended: `A.merge(B)` returns `false` — leaving the world
unchanged — exactly when `B` is `A` itself, or `A` lacks an output node,
or `B` lacks an input or an output node; `A`'s own input is never
checked, and in every other case the merge returns `true`. -/
theorem merge_failure_condition_C4 (w : World) (a b : Nat) :
    ((w.merge a b).2 = false ↔
      (a = b ∨ w.nfaOutput a = none ∨ w.nfaInput b = none ∨ w.nfaOutput b = none)) ∧
    ((w.merge a b).2 = false → (w.merge a b).1 = w) := by
  unfold World.merge
  by_cases hc : a = b ∨ w.nfaOutput a = none ∨ w.nfaInput b = none ∨ w.nfaOutput b = none
  · rw [if_pos hc]
    exact ⟨by simpa using hc, fun _ => rfl⟩
  · rw [if_neg hc]
    refine ⟨?_, ?_⟩ <;> simp [hc]

/-- Witness for `merge_failure_condition_C4`, at the one-automaton world
(where automaton `1` does not exist, so its input is null and the merge
fails). -/
theorem merge_failure_condition_C4_witness :
    ((((World.empty.new_nfa).1.merge 0 1).2 = false ↔
      ((0 : Nat) = 1 ∨ (World.empty.new_nfa).1.nfaOutput 0 = none ∨
        (World.empty.new_nfa).1.nfaInput 1 = none ∨
        (World.empty.new_nfa).1.nfaOutput 1 = none)) ∧
     (((World.empty.new_nfa).1.merge 0 1).2 = false →
       ((World.empty.new_nfa).1.merge 0 1).1 = (World.empty.new_nfa).1)) :=
  merge_failure_condition_C4 (World.empty.new_nfa).1 0 1

/-- Claim C9: when `(` is immediately followed by `?` and the next
character is not `:`, `parse_primary` silently consumes and discards the
`?` — the group body is parsed from right after the `?`, is still
wrapped as a capturing `Subexpression`, and the `?` is neither matched
as a literal nor treated as a quantifier; in particular `"(?a)"` parses
to the same AST as `"(a)"`. -/
theorem paren_question_discard_C9 :
    (∀ (fuel : Nat) (c : Char) (rest : List Char), c ≠ ':' →
      parse_primaryF (fuel + 1) ('(' :: '?' :: c :: rest) =
        (let p := parse_choiceF fuel (c :: rest)
         parse_quantifier (.subexpression p.1) p.2.tail)) ∧
    SimpleParser.parse "(?a)".toList = SimpleParser.parse "(a)".toList ∧
    SimpleParser.parse "(?a)".toList = .subexpression (.singleCharacter 'a') := by
  refine ⟨?_, rfl, rfl⟩
  intro fuel c rest hc
  show (let q : Bool × List Char :=
          if ('?' :: c :: rest).head? = some '?' then
            (if ('?' :: c :: rest).tail.head? = some ':' then
              (false, ('?' :: c :: rest).tail.tail)
             else (true, ('?' :: c :: rest).tail))
          else (true, '?' :: c :: rest)
        let p := parse_choiceF fuel q.2
        let node := if q.1 then Ast.subexpression p.1 else p.1
        parse_quantifier node p.2.tail) =
      (let p := parse_choiceF fuel (c :: rest)
       parse_quantifier (.subexpression p.1) p.2.tail)
  rw [if_pos (show ('?' :: c :: rest).head? = some '?' from rfl),
    if_neg (show ¬(('?' :: c :: rest).tail.head? = some ':') by simpa using hc)]
  rfl

/-- Witness for `paren_question_discard_C9` at `fuel = 0`, `c = 'a'`,
`rest = ")"`. -/
theorem paren_question_discard_C9_witness :
    ('a' : Char) ≠ ':' ∧
      parse_primaryF 1 ('(' :: '?' :: 'a' :: [')']) =
        (let p := parse_choiceF 0 ('a' :: [')'])
         parse_quantifier (.subexpression p.1) p.2.tail) :=
  ⟨by decide, paren_question_discard_C9.1 0 'a' [')'] (by decide)⟩

/-- Claim C6: after every successful `A.merge(B)` on a well-formed pair
of automata (each owned node points back to its owner, `B`'s designated
input/output are owned members and distinct), `B` owns no nodes and has
null input and output, `A`'s output is the node that was `B`'s output
before the call, and every surviving node of `B` (all but the deleted
`B.input`) is owned by `A` — member of `A`'s node set with its
back-reference pointing at `A`. -/
theorem merge_postconditions_C6 (w : World) (a b : Nat)
    (hga : ∀ n ∈ w.nfaNodes a, (lookupNode w.heap n).graph = some a)
    (hgb : ∀ n ∈ w.nfaNodes b, (lookupNode w.heap n).graph = some b)
    (hma : ∀ x, w.nfaOutput a = some x → x ∈ w.nfaNodes a)
    (hmbi : ∀ x, w.nfaInput b = some x → x ∈ w.nfaNodes b)
    (hmbo : ∀ x, w.nfaOutput b = some x → x ∈ w.nfaNodes b)
    (hio : w.nfaInput b ≠ w.nfaOutput b)
    (hsucc : (w.merge a b).2 = true) :
    (w.merge a b).1.nfaNodes b = ∅ ∧
    (w.merge a b).1.nfaInput b = none ∧
    (w.merge a b).1.nfaOutput b = none ∧
    (w.merge a b).1.nfaOutput a = w.nfaOutput b ∧
    (∀ n ∈ w.nfaNodes b, w.nfaInput b ≠ some n →
      n ∈ (w.merge a b).1.nfaNodes a ∧
        (lookupNode (w.merge a b).1.heap n).graph = some a) := by
  by_cases hcond : a = b ∨ w.nfaOutput a = none ∨
      w.nfaInput b = none ∨ w.nfaOutput b = none
  · exfalso
    unfold World.merge at hsucc
    rw [if_pos hcond] at hsucc
    exact Bool.noConfusion hsucc
  · push_neg at hcond
    obtain ⟨hab, hoa, hbi, hbo⟩ := hcond
    obtain ⟨oa, hoaeq⟩ := Option.ne_none_iff_exists'.1 hoa
    obtain ⟨ib, hibeq⟩ := Option.ne_none_iff_exists'.1 hbi
    obtain ⟨ob, hobeq⟩ := Option.ne_none_iff_exists'.1 hbo
    have hibob : ib ≠ ob := by
      intro h
      apply hio
      rw [hibeq, hobeq, h]
    have goa : (lookupNode w.heap oa).graph = some a := hga oa (hma oa hoaeq)
    have gib : (lookupNode w.heap ib).graph = some b := hgb ib (hmbi ib hibeq)
    have gob : (lookupNode w.heap ob).graph = some b := hgb ob (hmbo ob hobeq)
    have hoaib : oa ≠ ib := by
      intro h
      rw [h, gib] at goa
      exact hab (Option.some.inj goa).symm
    have hoaob : oa ≠ ob := by
      intro h
      rw [h, gob] at goa
      exact hab (Option.some.inj goa).symm
    have hcond2 : ¬(a = b ∨ w.nfaOutput a = none ∨
        w.nfaInput b = none ∨ w.nfaOutput b = none) := by
      push_neg
      exact ⟨hab, hoa, hbi, hbo⟩
    have h1 : (w.node_merge oa ib).nfaInput b = some ib := hibeq
    have hmerge : w.merge a b =
        ((((w.node_merge oa ib).delete_node ib).set_output a
            (((w.node_merge oa ib).delete_node ib).nfaOutput b)).acquire_nodes a b,
          true) := by
      unfold World.merge
      rw [if_neg hcond2, hoaeq, hibeq]
      show (let w2 := match (w.node_merge oa ib).nfaInput b with
              | some src => (w.node_merge oa ib).delete_node src
              | none => w.node_merge oa ib
            let w3 := w2.set_output a (w2.nfaOutput b)
            (w3.acquire_nodes a b, true)) = _
      rw [h1]
    -- step 1: node_merge only changes the heap, and only at oa
    have w1i : (w.node_merge oa ib).nfaInput = w.nfaInput := rfl
    have w1o : (w.node_merge oa ib).nfaOutput = w.nfaOutput := rfl
    have w1n : (w.node_merge oa ib).nfaNodes = w.nfaNodes := rfl
    have l1ib : (lookupNode (w.node_merge oa ib).heap ib).graph = some b := by
      rw [node_merge_lookup_other w (Ne.symm hoaib) ib]
      exact gib
    have l1ob : (lookupNode (w.node_merge oa ib).heap ob).graph = some b := by
      rw [node_merge_lookup_other w (Ne.symm hoaob) ib]
      exact gob
    -- step 2: delete B's input node
    have hdel : (w.node_merge oa ib).delete_node ib =
        (w.node_merge oa ib).remove_node b ib := delete_node_eq _ ib b l1ib
    obtain ⟨r1, r2, r3, r4⟩ := remove_node_input_spec (w.node_merge oa ib) b ib l1ib
      (by rw [w1i]; exact hibeq)
      (by rw [w1o, hobeq]; intro h; exact hibob (Option.some.inj h).symm)
    have w2i : ((w.node_merge oa ib).delete_node ib).nfaInput =
        Function.update w.nfaInput b none := by
      rw [hdel, r1, w1i]
    have w2o : ((w.node_merge oa ib).delete_node ib).nfaOutput = w.nfaOutput := by
      rw [hdel, r2, w1o]
    have w2n : ((w.node_merge oa ib).delete_node ib).nfaNodes =
        Function.update w.nfaNodes b ((w.nfaNodes b).erase ib) := by
      rw [hdel, r3, w1n]
    have w2lookup : ∀ m, m ≠ ib → m ≠ oa →
        lookupNode ((w.node_merge oa ib).delete_node ib).heap m = lookupNode w.heap m := by
      intro m hm1 hm2
      rw [hdel, r4 m hm1, node_merge_lookup_other w hm2 ib]
    have w2outb : ((w.node_merge oa ib).delete_node ib).nfaOutput b = some ob := by
      rw [w2o]
      exact hobeq
    rw [hmerge, w2outb]
    -- step 3: set_output a (some ob) steals B's output node
    obtain ⟨s1, s2, s3, s4, s5⟩ :=
      insert_node_foreign_spec ((w.node_merge oa ib).delete_node ib) a ob b
        (by rw [w2lookup ob (Ne.symm hibob) (Ne.symm hoaob)]; exact gob)
        (Ne.symm hab)
        (by rw [w2i, Function.update_same]; intro h; exact Option.noConfusion h)
        (by rw [w2o]; exact hobeq)
    obtain ⟨t1, t2, t3, t4⟩ :=
      set_output_some_spec ((w.node_merge oa ib).delete_node ib) a ob
    have w3i : (((w.node_merge oa ib).delete_node ib).set_output a (some ob)).nfaInput =
        Function.update w.nfaInput b none := by
      rw [t1, s1, w2i]
    have w3o : (((w.node_merge oa ib).delete_node ib).set_output a (some ob)).nfaOutput =
        Function.update (Function.update w.nfaOutput b none) a (some ob) := by
      rw [t2, s2, w2o]
    have w3nb : (((w.node_merge oa ib).delete_node ib).set_output a (some ob)).nfaNodes b =
        ((w.nfaNodes b).erase ib).erase ob := by
      rw [t3, s3, w2n]
      simp only [Function.update_noteq (Ne.symm hab), Function.update_same]
    have w3na : (((w.node_merge oa ib).delete_node ib).set_output a (some ob)).nfaNodes a =
        insert ob (w.nfaNodes a) := by
      rw [t3, s3, w2n]
      simp only [Function.update_same, Function.update_noteq hab]
    have w3lob :
        (lookupNode (((w.node_merge oa ib).delete_node ib).set_output a (some ob)).heap ob).graph =
          some a := by
      rw [t4]
      exact s5
    have w3lookup : ∀ m, m ≠ ib → m ≠ oa → m ≠ ob →
        lookupNode (((w.node_merge oa ib).delete_node ib).set_output a (some ob)).heap m =
          lookupNode w.heap m := by
      intro m hm1 hm2 hm3
      rw [t4, s4 m hm3, w2lookup m hm1 hm2]
    -- step 4: acquire_nodes empties B into A
    obtain ⟨q1, q2, q3, q4⟩ :=
      acquire_nodes_spec (((w.node_merge oa ib).delete_node ib).set_output a (some ob)) a b
    refine ⟨?_, ?_, ?_, ?_, ?_⟩
    · show ((((w.node_merge oa ib).delete_node ib).set_output a (some ob)).acquire_nodes a b).nfaNodes b = ∅
      rw [q3, Function.update_same]
    · show ((((w.node_merge oa ib).delete_node ib).set_output a (some ob)).acquire_nodes a b).nfaInput b = none
      rw [q1, Function.update_same]
    · show ((((w.node_merge oa ib).delete_node ib).set_output a (some ob)).acquire_nodes a b).nfaOutput b = none
      rw [q2, Function.update_same]
    · show ((((w.node_merge oa ib).delete_node ib).set_output a (some ob)).acquire_nodes a b).nfaOutput a = w.nfaOutput b
      rw [q2, Function.update_noteq hab, w3o, Function.update_same, hobeq]
    · intro n hn hni
      have hnib : n ≠ ib := by
        intro h
        exact hni (by rw [hibeq, h])
      constructor
      · show n ∈ ((((w.node_merge oa ib).delete_node ib).set_output a (some ob)).acquire_nodes a b).nfaNodes a
        rw [q3, Function.update_noteq hab, Function.update_same, w3na, w3nb]
        by_cases hnob : n = ob
        · subst hnob
          exact Finset.mem_union_left _ (Finset.mem_insert_self _ _)
        · refine Finset.mem_union_right _ ?_
          exact Finset.mem_erase.2 ⟨hnob, Finset.mem_erase.2 ⟨hnib, hn⟩⟩
      · show (lookupNode ((((w.node_merge oa ib).delete_node ib).set_output a (some ob)).acquire_nodes a b).heap n).graph = some a
        rw [q4, w3nb]
        by_cases hnob : n = ob
        · rw [hnob]
          have hnotin : ob ∉ ascNodes (((w.nfaNodes b).erase ib).erase ob) := by
            rw [mem_ascNodes]
            intro h
            exact (Finset.mem_erase.1 h).1 rfl
          rw [foldl_setGraph_not_mem a _ _ ob hnotin]
          exact w3lob
        · have hin : n ∈ ascNodes (((w.nfaNodes b).erase ib).erase ob) := by
            rw [mem_ascNodes]
            exact Finset.mem_erase.2 ⟨hnob, Finset.mem_erase.2 ⟨hnib, hn⟩⟩
          exact foldl_setGraph_mem a _ _ n hin


/-- Witness for `merge_postconditions_C6`: the world holding two freshly
constructed automata `0` (nodes 0,1) and `1` (nodes 2,3), merged. -/
theorem merge_postconditions_C6_witness :
    (((((World.empty.new_nfa).1.new_nfa).1).merge 0 1).2 = true ∧
     (((((World.empty.new_nfa).1.new_nfa).1).merge 0 1).1.nfaNodes 1 = ∅ ∧
      ((((World.empty.new_nfa).1.new_nfa).1).merge 0 1).1.nfaInput 1 = none ∧
      ((((World.empty.new_nfa).1.new_nfa).1).merge 0 1).1.nfaOutput 1 = none ∧
      ((((World.empty.new_nfa).1.new_nfa).1).merge 0 1).1.nfaOutput 0 =
        (((World.empty.new_nfa).1.new_nfa).1).nfaOutput 1 ∧
      (∀ n ∈ (((World.empty.new_nfa).1.new_nfa).1).nfaNodes 1,
        (((World.empty.new_nfa).1.new_nfa).1).nfaInput 1 ≠ some n →
        n ∈ ((((World.empty.new_nfa).1.new_nfa).1).merge 0 1).1.nfaNodes 0 ∧
          (lookupNode ((((World.empty.new_nfa).1.new_nfa).1).merge 0 1).1.heap n).graph =
            some 0))) := by
  refine ⟨by decide, ?_⟩
  refine merge_postconditions_C6 (((World.empty.new_nfa).1.new_nfa).1) 0 1
    (by decide) (by decide) ?_ ?_ ?_ (by decide) (by decide)
  · intro x h
    rw [show (((World.empty.new_nfa).1.new_nfa).1).nfaOutput 0 = some 1 from by decide] at h
    injection h with hx
    rw [← hx]
    decide
  · intro x h
    rw [show (((World.empty.new_nfa).1.new_nfa).1).nfaInput 1 = some 2 from by decide] at h
    injection h with hx
    rw [← hx]
    decide
  · intro x h
    rw [show (((World.empty.new_nfa).1.new_nfa).1).nfaOutput 1 = some 3 from by decide] at h
    injection h with hx
    rw [← hx]
    decide

end regex
